import Mathlib

/-!
Verification of the quoted-email text normalizer (`clean_quoted_email` in
`email_cleaner.py`) against its natural-language specification.

Strings are embedded as `List Char` of Unicode code points; the top-level
wrappers take Lean `String`s.  Every Python primitive used by the source
(`str.strip`, `str.splitlines`, `str.split`, `str.replace`, `' '.join`,
the three `re.sub` calls, the `in` operator) is translated to a structural
Lean function, so that concrete runs reduce by `decide`/`rfl` in the kernel.
-/

/-- Characters that Python's `str.strip()` / `str.isspace()` / regex `\s`
treat as whitespace (the ASCII controls and the Unicode space separators,
including the full-width space U+3000 used by the source's `[\s　]` classes). -/
def wsChars : List Char :=
  [' ', '\t', '\n', '\r',
   Char.ofNat 11, Char.ofNat 12, Char.ofNat 28, Char.ofNat 29,
   Char.ofNat 30, Char.ofNat 31, Char.ofNat 133, Char.ofNat 160,
   Char.ofNat 5760, Char.ofNat 8192, Char.ofNat 8193, Char.ofNat 8194,
   Char.ofNat 8195, Char.ofNat 8196, Char.ofNat 8197, Char.ofNat 8198,
   Char.ofNat 8199, Char.ofNat 8200, Char.ofNat 8201, Char.ofNat 8202,
   Char.ofNat 8232, Char.ofNat 8233, Char.ofNat 8239, Char.ofNat 8287,
   Char.ofNat 12288]

/-- Whitespace test matching Python's `str` whitespace set. -/
def isPyWs (c : Char) : Bool := wsChars.contains c

/-- Line boundaries recognised by Python's `str.splitlines()`
(`\r\n` is additionally treated as a single boundary). -/
def isLineBreakChar (c : Char) : Bool :=
  [Char.ofNat 10, Char.ofNat 13, Char.ofNat 11, Char.ofNat 12,
   Char.ofNat 28, Char.ofNat 29, Char.ofNat 30, Char.ofNat 133,
   Char.ofNat 8232, Char.ofNat 8233].contains c

/-- Removal of trailing whitespace (the right half of Python's `str.strip()`). -/
def dropTrailingWs : List Char → List Char
  | [] => []
  | c :: rest =>
    let r := dropTrailingWs rest
    if isPyWs c ∧ r = [] then [] else c :: r

/-- Python's `str.strip()`: drop leading and trailing whitespace. -/
def pyStrip (l : List Char) : List Char :=
  dropTrailingWs (l.dropWhile isPyWs)

/-- Worker for `splitlines`: `acc` holds the current line reversed. -/
def splitlinesAux : List Char → List Char → List (List Char)
  | acc, [] => if acc = [] then [] else [acc.reverse]
  | acc, '\r' :: '\n' :: rest => acc.reverse :: splitlinesAux [] rest
  | acc, c :: rest =>
    if isLineBreakChar c then acc.reverse :: splitlinesAux [] rest
    else splitlinesAux (c :: acc) rest

/-- Python's `str.splitlines()`: split at line boundaries, no trailing
empty line, `\r\n` counted once. -/
def splitlines (l : List Char) : List (List Char) := splitlinesAux [] l

/-- Test for the quote-line filter `re.match(r'^\s*>+', line)`: after
optional leading whitespace the line starts with at least one `>`. -/
def isQuoteLine (l : List Char) : Bool :=
  match l.dropWhile isPyWs with
  | c :: _ => decide (c = '>')
  | [] => false

/-- Embeds `re.sub(r'^\s*>+\s?', '', line).strip()`: when the anchored
pattern matches (the line is a quote line), remove the leading whitespace,
the whole run of `>` markers and at most one further whitespace character;
then strip.  When the pattern does not match, `re.sub` leaves the line
unchanged and only the strip applies. -/
def stripQuoteMarkers (l : List Char) : List Char :=
  let r := l.dropWhile isPyWs
  match r with
  | '>' :: _ =>
    let r2 := r.dropWhile (fun c => c = '>')
    match r2 with
    | c :: rest => if isPyWs c then pyStrip rest else pyStrip r2
    | [] => []
  | _ => pyStrip l

/-- Python's `sep.join(parts)` on character lists. -/
def joinWith (sep : List Char) : List (List Char) → List Char
  | [] => []
  | [x] => x
  | x :: y :: rest => x ++ sep ++ joinWith sep (y :: rest)

/-- Closing characters excluded by the lookahead class
`[^」』）】}\]\)>"\']` of the sentence-break substitution. -/
def closingChars : List Char :=
  ['」', '』', '）', '】', '}', ']', ')', '>', Char.ofNat 34, Char.ofNat 39]

/-- Membership in the exclusion set of closing brackets/quotes. -/
def isClosingChar (c : Char) : Bool := closingChars.contains c

mutual

/-- Scanning state of `re.sub(r'。[\s　]*(?=[^」』）】}\]\)>"\'])', '。\n', s)`
outside a potential match: copy characters, and on `。` switch to
`sbsStop` with an empty whitespace buffer. -/
def sbsGo : List Char → List Char
  | [] => []
  | c :: rest =>
    if c = '。' then '。' :: sbsStop none rest else c :: sbsGo rest

/-- Scanning state directly after a full stop.  `buf` holds the most recent
pending whitespace character (the greedy `[\s　]*` with backtracking keeps at
most the last whitespace character unconsumed, because the lookahead class
accepts every whitespace character).  On a further whitespace character the
previously buffered one is consumed by the match; on a non-excluded character
the lookahead succeeds with the whole run consumed and `\n` is emitted; on an
excluded character the match still succeeds via backtracking when at least one
whitespace character was seen (`buf` is left in place), and fails otherwise;
at the end of input the lookahead can still succeed on a buffered whitespace
character. -/
def sbsStop : Option Char → List Char → List Char
  | some w, [] => ['\n', w]
  | none, [] => []
  | buf, c :: rest =>
    if isPyWs c then sbsStop (some c) rest
    else if c = '。' then '\n' :: '。' :: sbsStop none rest
    else if isClosingChar c then
      match buf with
      | some w => '\n' :: w :: c :: sbsGo rest
      | none => c :: sbsGo rest
    else '\n' :: c :: sbsGo rest

end

/-- The sentence-break substitution of line 107 of the source:
`re.sub(r'。[\s　]*(?=[^」』）】}\]\)>"\'])', '。\n', joined_text)`. -/
def sentenceBreakSub (l : List Char) : List Char := sbsGo l

/-- Worker for `wsToNewline`; the flag records whether the previous
character belonged to the current whitespace run. -/
def wsToNewlineGo : Bool → List Char → List Char
  | _, [] => []
  | inRun, c :: rest =>
    if isPyWs c then
      if inRun then wsToNewlineGo true rest
      else '\n' :: wsToNewlineGo true rest
    else c :: wsToNewlineGo false rest

/-- The whitespace collapse of line 110 of the source:
`re.sub(r'[\s　]+', '\n', joined_text)` — every maximal run of whitespace
becomes a single line break. -/
def wsToNewline (l : List Char) : List Char := wsToNewlineGo false l

/-- Worker for `collapseNewlines`; `seen` counts the consecutive newlines
already emitted for the current run (capped behaviour: after two, further
newlines of the run are dropped). -/
def collapseGo : Nat → List Char → List Char
  | _, [] => []
  | seen, c :: rest =>
    if c = '\n' then
      if 2 ≤ seen then collapseGo seen rest
      else '\n' :: collapseGo (seen + 1) rest
    else c :: collapseGo 0 rest

/-- The blank-line collapsing of line 119 of the source:
`re.sub(r'\n{3,}', '\n\n', joined_text)` — runs of three or more newlines
become exactly two, shorter runs are untouched. -/
def collapseNewlines (l : List Char) : List Char := collapseGo 0 l

/-- Python's substring operator `pat in t`. -/
def containsSub : List Char → List Char → Bool
  | t, pat =>
    if pat.isPrefixOf t then true
    else match t with
      | [] => false
      | _ :: rest => containsSub rest pat

/-- Python's `t.replace("", r)`: the replacement is inserted before every
character and once at the end. -/
def pyReplaceEmptySep (t r : List Char) : List Char :=
  r ++ t.foldr (fun c acc => c :: r ++ acc) []

/-- Fuelled worker for `pyReplaceNE`; the fuel is an upper bound on the
remaining text length, making the recursion structural. -/
def pyReplaceGo (kw r : List Char) : Nat → List Char → List Char
  | _, [] => []
  | 0, t => t
  | Nat.succ fuel, c :: rest =>
    if kw.isPrefixOf (c :: rest) then
      r ++ pyReplaceGo kw r fuel (rest.drop (kw.length - 1))
    else c :: pyReplaceGo kw r fuel rest

/-- Python's `t.replace(kw, r)` for a non-empty `kw`: replace the
non-overlapping occurrences of `kw`, scanning left to right. -/
def pyReplaceNE (t kw r : List Char) : List Char :=
  pyReplaceGo kw r t.length t

/-- Python's `t.replace(kw, r)`. -/
def pyReplace (t kw r : List Char) : List Char :=
  if kw = [] then pyReplaceEmptySep t r else pyReplaceNE t kw r

/-- Prepend a character to the first chunk of a split result. -/
def consHead (c : Char) : List (List Char) → List (List Char)
  | [] => [[c]]
  | h :: t => (c :: h) :: t

/-- Fuelled worker for `pySplit`. -/
def pySplitGo (kw : List Char) : Nat → List Char → List (List Char)
  | _, [] => [[]]
  | 0, t => [t]
  | Nat.succ fuel, c :: rest =>
    if kw.isPrefixOf (c :: rest) then
      [] :: pySplitGo kw fuel (rest.drop (kw.length - 1))
    else consHead c (pySplitGo kw fuel rest)

/-- Python's `t.split(kw)` for a non-empty separator `kw`: the chunks
between the non-overlapping left-to-right occurrences of `kw`. -/
def pySplit (t kw : List Char) : List (List Char) :=
  pySplitGo kw t.length t

/-- Number of non-overlapping occurrences of `pat` in `l`
(`len(l.split(pat)) - 1` in Python terms). -/
def countOccurrences (l pat : List Char) : Nat :=
  (pySplit l pat).length - 1

/-- The keyword loop of lines 113-116 of the source: for each keyword in
list order, if it occurs in the current text, replace every occurrence by
two line breaks followed by the keyword. -/
def keywordPass : List (List Char) → List Char → List Char
  | [], t => t
  | kw :: rest, t =>
    keywordPass rest
      (if containsSub t kw then pyReplace t kw ('\n' :: '\n' :: kw) else t)

/-- The quote lines selected by line 87 of the source. -/
def quotedOf (text : List Char) : List (List Char) :=
  (splitlines text).filter isQuoteLine

/-- The stripped, non-empty quote lines of lines 94-98 of the source. -/
def cleanedOf (text : List Char) : List (List Char) :=
  ((quotedOf text).map stripQuoteMarkers).filter (fun l => !l.isEmpty)

/-- The single-space join of line 104 of the source. -/
def joinedText (text : List Char) : List Char :=
  joinWith [' '] (cleanedOf text)

/-- Lines 107-121 of the source applied after the join: sentence breaks,
whitespace-to-newline conversion, keyword paragraph breaks, blank-line
collapsing, final strip. -/
def transformedText (text : List Char) (keywords : List (List Char)) : List Char :=
  pyStrip (collapseNewlines
    (keywordPass keywords (wsToNewline (sentenceBreakSub (joinedText text)))))

/-- The body of the `try` block of `clean_quoted_email` (lines 84-121).
Each translated step is total, so the result is always `Except.ok`; the
`Except` wrapper records where a Python exception would propagate to. -/
def tryCleanBody (text : List Char) (keywords : List (List Char)) :
    Except String (List Char) :=
  if quotedOf text = [] then Except.ok (pyStrip text)
  else if cleanedOf text = [] then Except.ok []
  else Except.ok (transformedText text keywords)

/-- The `except` clause of lines 123-125: on success the transformed text
is returned, on failure the original text. -/
def handleCleanResult (text : List Char) : Except String (List Char) → List Char
  | Except.ok s => s
  | Except.error _ => text

/-- The full `clean_quoted_email` on character lists: empty-after-strip
guard (lines 80-81), then the guarded transformation. -/
def cleanChars (text : List Char) (keywords : List (List Char)) : List Char :=
  if pyStrip text = [] then []
  else handleCleanResult text (tryCleanBody text keywords)

/-- `EmailCleaner.clean_quoted_email` with the keyword list passed
explicitly (in the source it is read from the configuration). -/
def clean_quoted_email (text : String) (keywords : List String) : String :=
  String.mk (cleanChars text.data (keywords.map String.data))

/-- The value `'記、件名、宛先、差出人'` that `_create_default_config`
writes for the `keywords.list` entry (line 37 of the source): four terms
separated by ideographic commas U+3001. -/
def defaultKeywordsValue : List Char := "記、件名、宛先、差出人".data

/-- `EmailCleanerConfig.get_keywords` (lines 53-55): split the configured
string on ASCII commas, strip each piece, drop empty pieces. -/
def get_keywords (keywordsStr : List Char) : List (List Char) :=
  ((pySplit keywordsStr [',']).map pyStrip).filter (fun kw => !kw.isEmpty)

/-- For each occurrence of `。` in a string, its immediate successor
character (or `none` at the end of the string). -/
def stopSuccessors : List Char → List (Option Char)
  | [] => []
  | c :: rest =>
    if c = '。' then rest.head? :: stopSuccessors rest
    else stopSuccessors rest

/-- Whether a string starts with a line break. -/
def headIsNL : List Char → Bool
  | c :: _ => decide (c = '\n')
  | [] => false

/-- For each occurrence of `。` in a string, whether it is immediately
followed by a line break. -/
def stopsWithBreak : List Char → List Bool
  | [] => []
  | c :: rest =>
    if c = '。' then headIsNL rest :: stopsWithBreak rest
    else stopsWithBreak rest

/-- Rendering of the amended sentence-break rule: a break is inserted after
a full stop exactly when some character follows it immediately and that
character is not in the closing-bracket exclusion set. -/
def breakExpected : Option Char → Bool
  | none => false
  | some c => !(isClosingChar c)

/-- Whether the `sbsStop` state eventually emits the `\n` of a match, as a
function of the buffered whitespace character and the remaining input. -/
def stopBreakExpected (buf : Option Char) (l : List Char) : Bool :=
  match buf, l with
  | some _, _ => true
  | none, [] => false
  | none, c :: _ => !(isClosingChar c)

/-- Whether a string contains three consecutive line breaks. -/
def hasTriple : List Char → Bool
  | a :: b :: c :: rest =>
    (decide (a = '\n') && decide (b = '\n') && decide (c = '\n')) ||
      hasTriple (b :: c :: rest)
  | _ => false

/-- Length of the leading run of newlines. -/
def leadingNLRun : List Char → Nat
  | [] => 0
  | c :: rest => if c = '\n' then 1 + leadingNLRun rest else 0

/-- First non-whitespace character of a string, if any. -/
def firstNonWs (l : List Char) : Option Char :=
  (l.dropWhile isPyWs).head?

/-! ## Character-class facts -/

theorem closing_not_ws : ∀ c ∈ closingChars, isPyWs c = false := by decide

theorem closing_not_stop : ∀ c ∈ closingChars, c ≠ '。' := by decide

theorem closing_not_nl : ∀ c ∈ closingChars, c ≠ '\n' := by decide

theorem ws_not_stop : ∀ c ∈ wsChars, c ≠ '。' := by decide

theorem ws_mem_not_closing : ∀ c ∈ wsChars, isClosingChar c = false := by decide

theorem mem_wsChars_of_isPyWs {c : Char} (h : isPyWs c = true) : c ∈ wsChars := by
  simpa [isPyWs] using h

theorem mem_closing_of_isClosingChar {c : Char} (h : isClosingChar c = true) :
    c ∈ closingChars := by
  simpa [isClosingChar] using h

theorem isPyWs_not_closing {c : Char} (h : isPyWs c = true) : isClosingChar c = false :=
  ws_mem_not_closing c (mem_wsChars_of_isPyWs h)

theorem isPyWs_ne_stop {c : Char} (h : isPyWs c = true) : c ≠ '。' :=
  ws_not_stop c (mem_wsChars_of_isPyWs h)

theorem isClosingChar_ne_stop {c : Char} (h : isClosingChar c = true) : c ≠ '。' :=
  closing_not_stop c (mem_closing_of_isClosingChar h)

theorem isClosingChar_ne_nl {c : Char} (h : isClosingChar c = true) : c ≠ '\n' :=
  closing_not_nl c (mem_closing_of_isClosingChar h)

/-! ## Placement of the inserted sentence breaks -/

theorem stopBreakExpected_none (l : List Char) :
    stopBreakExpected none l = breakExpected l.head? := by
  cases l <;> rfl

theorem sbsStop_head : ∀ (l : List Char) (buf : Option Char),
    headIsNL (sbsStop buf l) = stopBreakExpected buf l := by
  intro l
  induction l with
  | nil => intro buf; cases buf <;> rfl
  | cons c rest ih =>
    intro buf
    by_cases hws : isPyWs c = true
    · have hni : isClosingChar c = false := isPyWs_not_closing hws
      cases buf with
      | none => simp [sbsStop, hws, ih, stopBreakExpected, hni]
      | some w => simp [sbsStop, hws, ih, stopBreakExpected]
    · by_cases hstop : c = '。'
      · subst hstop
        cases buf <;>
          simp [sbsStop, hws, stopBreakExpected, headIsNL,
            (by decide : isClosingChar '。' = false)]
      · by_cases hcl : isClosingChar c = true
        · have hnl : c ≠ '\n' := isClosingChar_ne_nl hcl
          cases buf <;>
            simp [sbsStop, hws, hstop, hcl, stopBreakExpected, headIsNL, hnl]
        · cases buf <;>
            simp [sbsStop, hws, hstop, hcl, stopBreakExpected, headIsNL]

theorem sbs_stops_aux : ∀ (n : Nat) (l : List Char), l.length ≤ n →
    (stopsWithBreak (sbsGo l) = (stopSuccessors l).map breakExpected) ∧
    (∀ buf : Option Char, (∀ w, buf = some w → isPyWs w = true) →
      stopsWithBreak (sbsStop buf l) = (stopSuccessors l).map breakExpected) := by
  intro n
  induction n with
  | zero =>
    intro l hl
    have hnil : l = [] := List.eq_nil_of_length_eq_zero (Nat.le_zero.mp hl)
    subst hnil
    refine ⟨rfl, ?_⟩
    intro buf hbuf
    cases buf with
    | none => rfl
    | some w =>
      have hw : w ≠ '。' := isPyWs_ne_stop (hbuf w rfl)
      simp [sbsStop, stopsWithBreak, stopSuccessors, hw]
  | succ n ih =>
    intro l hl
    cases l with
    | nil =>
      refine ⟨rfl, ?_⟩
      intro buf hbuf
      cases buf with
      | none => rfl
      | some w =>
        have hw : w ≠ '。' := isPyWs_ne_stop (hbuf w rfl)
        simp [sbsStop, stopsWithBreak, stopSuccessors, hw]
    | cons c rest =>
      have hrest : rest.length ≤ n := by simpa using hl
      have hgo1 := (ih rest hrest).1
      have hstopnone := (ih rest hrest).2 none (fun w hw => by cases hw)
      have part2 : ∀ buf : Option Char, (∀ w, buf = some w → isPyWs w = true) →
          stopsWithBreak (sbsStop buf (c :: rest)) =
            (stopSuccessors (c :: rest)).map breakExpected := by
        intro buf hbuf
        by_cases hws : isPyWs c = true
        · have hcne : c ≠ '。' := isPyWs_ne_stop hws
          have hsc := (ih rest hrest).2 (some c) (fun w hw => by cases hw; exact hws)
          cases buf <;> simp [sbsStop, hws, stopSuccessors, hcne, hsc]
        · by_cases hstop : c = '。'
          · subst hstop
            have hbr := sbsStop_head rest none
            cases buf <;>
              simp [sbsStop, hws, stopsWithBreak, stopSuccessors, hstopnone, hbr,
                stopBreakExpected_none, (by decide : ¬ (('\n' : Char) = '。'))]
          · by_cases hcl : isClosingChar c = true
            · have hcne : c ≠ '。' := isClosingChar_ne_stop hcl
              cases buf with
              | none =>
                simp [sbsStop, hws, hstop, hcl, stopsWithBreak, stopSuccessors,
                  hcne, hgo1]
              | some w =>
                have hwne : w ≠ '。' := isPyWs_ne_stop (hbuf w rfl)
                simp [sbsStop, hws, hstop, hcl, stopsWithBreak, stopSuccessors,
                  hcne, hwne, (by decide : ¬ (('\n' : Char) = '。')), hgo1]
            · cases buf <;>
                simp [sbsStop, hws, hstop, hcl, stopsWithBreak, stopSuccessors,
                  (by decide : ¬ (('\n' : Char) = '。')), hgo1]
      refine ⟨?_, part2⟩
      by_cases hstop : c = '。'
      · subst hstop
        have hbr := sbsStop_head rest none
        simp [sbsGo, stopsWithBreak, stopSuccessors, hstopnone, hbr,
          stopBreakExpected_none]
      · simp [sbsGo, hstop, stopsWithBreak, stopSuccessors, hgo1]

/-! ## Claim C1 -/

/-- Claim C1, as stated, is false: in the joined text `あ。 )` the full stop
is followed by one whitespace character whose next non-whitespace character
is the closing bracket `)`, a member of the exclusion set, so the claim
prescribes no inserted line break; but the backtracking of the greedy
`[\s　]*` lets the lookahead succeed on the whitespace character itself, so
the substitution does fire and the sole `。` of the output is immediately
followed by an inserted `\n`, which also survives into the final result of
`clean_quoted_email`. -/
theorem C1_counterexample :
    joinedText "> あ。 )".data = "あ。 )".data ∧
    "あ。 )".data = "あ。".data ++ [' ', ')'] ∧
    firstNonWs [' ', ')'] = some ')' ∧
    isClosingChar ')' = true ∧
    sentenceBreakSub "あ。 )".data = "あ。\n )".data ∧
    stopsWithBreak (sentenceBreakSub "あ。 )".data) = [true] ∧
    clean_quoted_email "> あ。 )" [] = "あ。\n)" := by decide

/-- Claim C1 amended: for every input string, in the sentence-break pass
applied to the stripped-and-joined quote text, a line break is inserted
after a full stop `。` exactly when some character immediately follows it
and that character is not in the closing exclusion set; whitespace is never
in the exclusion set, so a full stop followed by whitespace always receives
a break, even when the next non-whitespace character is a closing bracket,
while a full stop immediately followed by a closing character, or standing
at the end of the text, receives none. -/
theorem C1_sentence_break_rule (t : String) :
    stopsWithBreak (sentenceBreakSub (joinedText t.data)) =
      (stopSuccessors (joinedText t.data)).map breakExpected :=
  (sbs_stops_aux (joinedText t.data).length _ le_rfl).1

/-! ## Claim C2 -/

/-- Claim C2 fails on the code: `_create_default_config` writes the four
default terms separated by ideographic commas (U+3001), but `get_keywords`
splits the configured string on ASCII commas, so the default keyword list
is the single string `記、件名、宛先、差出人` rather than the four terms;
splitting the same terms written with ASCII commas would produce the
intended four-element list. -/
theorem C2_default_keywords :
    get_keywords defaultKeywordsValue = [defaultKeywordsValue] ∧
    get_keywords defaultKeywordsValue ≠
      ["記".data, "件名".data, "宛先".data, "差出人".data] ∧
    get_keywords "記,件名,宛先,差出人".data =
      ["記".data, "件名".data, "宛先".data, "差出人".data] := by decide

/-! ## Claim C3 -/

/-- Claim C3, as stated, is false: on the example input the keyword pass
does prepend a blank line before `記`, but `記` sits at the very start of
the text, so the final strip of line 121 removes the inserted blank line
and the output starts directly with `記`, not with a blank line. -/
theorem C3_counterexample :
    (clean_quoted_email "> 記：テストです。\n> 本文はこちらです。" ["記"]).data.head? =
      some '記' ∧
    ¬ (clean_quoted_email "> 記：テストです。\n> 本文はこちらです。" ["記"]).data.head? =
      some '\n' := by decide

/-- Claim C3 amended: for the two example lines with keyword list `[記]`
the normalizer returns exactly `記：テストです。\n本文はこちらです。` — the
line break after the first full stop (which does not precede a closing
bracket) is present, and the blank line inserted before `記` is removed
again by the final strip because `記` begins the text, so the output does
not begin with a blank line. -/
theorem C3_example_output :
    clean_quoted_email "> 記：テストです。\n> 本文はこちらです。" ["記"] =
      "記：テストです。\n本文はこちらです。" := by decide

/-! ## Properties of the strip operations -/

theorem dropWhile_head_not {p : Char → Bool} :
    ∀ {l : List Char} {c : Char}, (l.dropWhile p).head? = some c → p c = false := by
  intro l
  induction l with
  | nil => intro c h; simp [List.dropWhile] at h
  | cons a rest ih =>
    intro c h
    by_cases hp : p a
    · rw [List.dropWhile_cons_of_pos hp] at h
      exact ih h
    · rw [List.dropWhile_cons_of_neg hp] at h
      simp at h
      rw [← h]
      exact Bool.eq_false_iff.mpr hp

theorem dropTrailingWs_idem : ∀ l : List Char,
    dropTrailingWs (dropTrailingWs l) = dropTrailingWs l := by
  intro l
  induction l with
  | nil => rfl
  | cons c rest ih =>
    by_cases h : isPyWs c = true ∧ dropTrailingWs rest = []
    · simp [dropTrailingWs, h]
    · have h1 : dropTrailingWs (c :: rest) = c :: dropTrailingWs rest := by
        simp [dropTrailingWs]
        intro hw hr
        exact absurd ⟨hw, hr⟩ h
      rw [h1]
      simp [dropTrailingWs, ih]
      intro hw hr
      exact absurd ⟨hw, hr⟩ h

theorem dropTrailingWs_head {l : List Char} {c : Char}
    (h : (dropTrailingWs l).head? = some c) : l.head? = some c := by
  cases l with
  | nil => simp [dropTrailingWs] at h
  | cons a rest =>
    by_cases hc : isPyWs a = true ∧ dropTrailingWs rest = []
    · simp [dropTrailingWs, hc] at h
    · have h1 : dropTrailingWs (a :: rest) = a :: dropTrailingWs rest := by
        simp [dropTrailingWs]
        intro hw hr
        exact absurd ⟨hw, hr⟩ hc
      rw [h1] at h
      simpa using h

theorem pyStrip_head_not_ws {l : List Char} {c : Char}
    (h : (pyStrip l).head? = some c) : isPyWs c = false :=
  dropWhile_head_not (dropTrailingWs_head h)

theorem pyStrip_idem (l : List Char) : pyStrip (pyStrip l) = pyStrip l := by
  have hdw : (pyStrip l).dropWhile isPyWs = pyStrip l := by
    cases hh : pyStrip l with
    | nil => rfl
    | cons c rest =>
      have hcw : isPyWs c = false := pyStrip_head_not_ws (by rw [hh]; rfl)
      simp [List.dropWhile_cons, hcw]
  show dropTrailingWs ((pyStrip l).dropWhile isPyWs) = pyStrip l
  rw [hdw]
  exact dropTrailingWs_idem _

theorem pyStrip_eq_nil_of_all_ws {l : List Char} (h : ∀ c ∈ l, isPyWs c = true) :
    pyStrip l = [] := by
  have hd : l.dropWhile isPyWs = [] := List.dropWhile_eq_nil_iff.mpr h
  simp [pyStrip, hd, dropTrailingWs]

theorem pyStrip_ne_nil {l : List Char} {c : Char} (hc : c ∈ l)
    (hw : isPyWs c = false) : pyStrip l ≠ [] := by
  cases hd : l.dropWhile isPyWs with
  | nil =>
    have := List.dropWhile_eq_nil_iff.mp hd c hc
    rw [hw] at this
    cases this
  | cons a rest =>
    have ha : isPyWs a = false := dropWhile_head_not (by rw [hd]; rfl)
    simp [pyStrip, hd, dropTrailingWs, ha]

/-! ## Case analysis of the normalizer -/

theorem cleanChars_cases (text : List Char) (kws : List (List Char)) :
    cleanChars text kws = [] ∨ cleanChars text kws = pyStrip text ∨
      cleanChars text kws = transformedText text kws := by
  unfold cleanChars tryCleanBody
  split
  · exact Or.inl rfl
  · split
    · exact Or.inr (Or.inl rfl)
    · split
      · exact Or.inl rfl
      · exact Or.inr (Or.inr rfl)

theorem cleanChars_cases_quoted (text : List Char) (kws : List (List Char))
    (hq : quotedOf text ≠ []) :
    cleanChars text kws = [] ∨ cleanChars text kws = transformedText text kws := by
  unfold cleanChars tryCleanBody
  rw [if_neg hq]
  split
  · exact Or.inl rfl
  · split
    · exact Or.inl rfl
    · exact Or.inr rfl

/-! ## Claim C7 -/

/-- Claim C7 confirmed: whatever the input and keyword list, the string
returned by the normalizer has no leading or trailing whitespace — every
return path of `clean_quoted_email` produces either the empty string or a
value of `pyStrip`, which is invariant under further stripping. -/
theorem C7_output_trimmed (t : String) (kws : List String) :
    pyStrip (clean_quoted_email t kws).data = (clean_quoted_email t kws).data := by
  show pyStrip (cleanChars t.data (kws.map String.data)) =
    cleanChars t.data (kws.map String.data)
  rcases cleanChars_cases t.data (kws.map String.data) with h | h | h <;> rw [h]
  · rfl
  · exact pyStrip_idem _
  · exact pyStrip_idem _

/-! ## Claim C9 -/

/-- Claim C9 confirmed: an input that is empty or consists only of
whitespace characters strips to the empty string, so the guard of lines
80-81 returns the empty string. -/
theorem C9_whitespace_input (t : String) (kws : List String)
    (h : ∀ c ∈ t.data, isPyWs c = true) : clean_quoted_email t kws = "" := by
  have h0 : pyStrip t.data = [] := pyStrip_eq_nil_of_all_ws h
  show String.mk (cleanChars t.data (kws.map String.data)) = ""
  unfold cleanChars
  rw [if_pos h0]

/-- Witness for claim C9 at the spec's example input, the whitespace-only
string of three spaces, a newline, a tab and two spaces. -/
theorem C9_witness : clean_quoted_email "   \n\t  " ["記"] = "" :=
  C9_whitespace_input "   \n\t  " ["記"] (by decide)

/-! ## Claim C4 -/

/-- Claim C4 confirmed: when no line of the input matches the quote-line
pattern, the filter of line 87 is empty and the normalizer returns the
stripped input (lines 89-91); the all-whitespace early return agrees with
this because such input strips to the empty string. -/
theorem C4_no_quote_lines (t : String) (kws : List String)
    (h : ∀ l ∈ splitlines t.data, isQuoteLine l = false) :
    clean_quoted_email t kws = String.mk (pyStrip t.data) := by
  have hq : quotedOf t.data = [] := by
    refine List.filter_eq_nil_iff.mpr ?_
    intro a ha
    simp [h a ha]
  show String.mk (cleanChars t.data (kws.map String.data)) = String.mk (pyStrip t.data)
  unfold cleanChars tryCleanBody
  rw [if_pos hq]
  by_cases h0 : pyStrip t.data = []
  · rw [if_pos h0, h0]
  · rw [if_neg h0]
    rfl

/-- Witness for claim C4 on a concrete quoteless input. -/
theorem C4_witness :
    clean_quoted_email "  hello world\nsecond line  " ["記"] =
      String.mk (pyStrip "  hello world\nsecond line  ".data) :=
  C4_no_quote_lines "  hello world\nsecond line  " ["記"] (by decide)

/-! ## Claim C10 -/


/-! ## Claim C10 -/

theorem splitlinesAux_mem_chars :
    ∀ (acc t l : List Char), l ∈ splitlinesAux acc t → ∀ c ∈ l, c ∈ acc ∨ c ∈ t := by
  intro acc t
  induction acc, t using splitlinesAux.induct with
  | case1 =>
    intro l hl c hc
    rw [splitlinesAux.eq_1] at hl
    simp at hl
  | case2 acc hacc =>
    intro l hl c hc
    rw [splitlinesAux.eq_1, if_neg hacc] at hl
    simp at hl
    subst hl
    exact Or.inl (by simpa using hc)
  | case3 acc rest ih =>
    intro l hl c hc
    rw [splitlinesAux.eq_2] at hl
    rcases List.mem_cons.mp hl with rfl | hl2
    · exact Or.inl (by simpa using hc)
    · rcases ih l hl2 c hc with h | h
      · simp at h
      · exact Or.inr (by simp [h])
  | case4 acc ch rest hne hlb ih =>
    intro l hl c hc
    rw [splitlinesAux.eq_3 _ _ _ hne, if_pos hlb] at hl
    rcases List.mem_cons.mp hl with rfl | hl2
    · exact Or.inl (by simpa using hc)
    · rcases ih l hl2 c hc with h | h
      · simp at h
      · exact Or.inr (by simp [h])
  | case5 acc ch rest hne hlb ih =>
    intro l hl c hc
    rw [splitlinesAux.eq_3 _ _ _ hne, if_neg hlb] at hl
    rcases ih l hl c hc with h | h
    · rcases List.mem_cons.mp h with rfl | h2
      · exact Or.inr (List.mem_cons_self _ _)
      · exact Or.inl h2
    · exact Or.inr (List.mem_cons_of_mem _ h)

theorem mem_splitlines_chars {t l : List Char} (hl : l ∈ splitlines t) {c : Char}
    (hc : c ∈ l) : c ∈ t := by
  rcases splitlinesAux_mem_chars [] t l hl c hc with h | h
  · cases h
  · exact h

theorem isQuoteLine_mem_gt {l : List Char} (h : isQuoteLine l = true) : '>' ∈ l := by
  unfold isQuoteLine at h
  cases hd : l.dropWhile isPyWs with
  | nil => rw [hd] at h; cases h
  | cons a rest =>
    rw [hd] at h
    have ha : a = '>' := by simpa using h
    subst ha
    exact (List.dropWhile_suffix isPyWs).subset (by rw [hd]; exact List.mem_cons_self _ _)

/-- Claim C10 confirmed: after line 87 every step of the transformation
depends only on the filtered quote lines (and the keyword list), and an
input owning at least one quote line cannot be all-whitespace (a quote line
contains `>`), so two inputs with the same sequence of quote-matching lines
normalize identically. -/
theorem C10_only_quotes_matter (t1 t2 : String) (kws : List String)
    (h1 : quotedOf t1.data ≠ []) (h2 : quotedOf t1.data = quotedOf t2.data) :
    clean_quoted_email t1 kws = clean_quoted_email t2 kws := by
  have hgt : ∀ u : List Char, quotedOf u ≠ [] → pyStrip u ≠ [] := by
    intro u hu
    rcases List.exists_mem_of_ne_nil _ hu with ⟨l, hl⟩
    have hlf := List.mem_filter.mp hl
    have hgtl : '>' ∈ l := isQuoteLine_mem_gt hlf.2
    exact pyStrip_ne_nil (mem_splitlines_chars hlf.1 hgtl) (by decide)
  have h1' : quotedOf t2.data ≠ [] := h2 ▸ h1
  have hs1 : pyStrip t1.data ≠ [] := hgt _ h1
  have hs2 : pyStrip t2.data ≠ [] := hgt _ h1'
  have hc : cleanedOf t1.data = cleanedOf t2.data := by
    unfold cleanedOf
    rw [h2]
  have htr : transformedText t1.data (kws.map String.data) =
      transformedText t2.data (kws.map String.data) := by
    unfold transformedText joinedText
    rw [hc]
  show String.mk (cleanChars t1.data (kws.map String.data)) =
    String.mk (cleanChars t2.data (kws.map String.data))
  unfold cleanChars tryCleanBody
  rw [if_neg hs1, if_neg hs2, if_neg h1, if_neg h1', hc, htr]
  by_cases hce : cleanedOf t2.data = []
  · rw [if_pos hce]
    rfl
  · rw [if_neg hce]
    rfl

/-- Witness for claim C10: two different inputs sharing the single quote
line `> q w` normalize to the same output. -/
theorem C10_witness :
    clean_quoted_email "x\n> q w" ["記"] = clean_quoted_email "> q w\nzz z" ["記"] :=
  C10_only_quotes_matter "x\n> q w" "> q w\nzz z" ["記"] (by decide) (by decide)

/-! ## Claim C6 -/

theorem hasTriple_cons_false {c : Char} {l : List Char}
    (h : hasTriple (c :: l) = false) : hasTriple l = false := by
  rcases l with _ | ⟨b, _ | ⟨d, r2⟩⟩
  · rfl
  · rfl
  · simp [hasTriple] at h
    simp [hasTriple, h.2]

theorem hasTriple_cons_ne {c : Char} (hne : c ≠ '\n') (l : List Char) :
    hasTriple (c :: l) = hasTriple l := by
  rcases l with _ | ⟨b, _ | ⟨d, r2⟩⟩
  · rfl
  · rfl
  · simp [hasTriple, hne]

theorem hasTriple_cons_true {c : Char} {l : List Char} (h : hasTriple l = true) :
    hasTriple (c :: l) = true := by
  rcases l with _ | ⟨x, _ | ⟨y, _ | ⟨z, r⟩⟩⟩
  · simp [hasTriple] at h
  · simp [hasTriple] at h
  · simp [hasTriple] at h
  · simp [hasTriple] at h ⊢
    tauto

theorem hasTriple_decomp {l : List Char} (h : hasTriple l = true) :
    ∃ a b, l = a ++ '\n' :: '\n' :: '\n' :: b := by
  induction l with
  | nil => simp [hasTriple] at h
  | cons c rest ih =>
    rcases rest with _ | ⟨y, _ | ⟨z, r⟩⟩
    · simp [hasTriple] at h
    · simp [hasTriple] at h
    · simp [hasTriple] at h
      rcases h with ⟨⟨hc, hy⟩, hz⟩ | h2
      · exact ⟨[], r, by simp [hc, hy, hz]⟩
      · rcases ih (by simpa [hasTriple] using h2) with ⟨a, b, hab⟩
        exact ⟨c :: a, b, by simp [hab]⟩

theorem hasTriple_of_decomp (a b : List Char) :
    hasTriple (a ++ '\n' :: '\n' :: '\n' :: b) = true := by
  induction a with
  | nil => simp [hasTriple]
  | cons c rest ih => exact hasTriple_cons_true ih

theorem hasTriple_false_of_prefix_rel {l1 l2 : List Char} (h : l1 <+: l2)
    (h2 : hasTriple l2 = false) : hasTriple l1 = false := by
  by_contra hh
  rcases hasTriple_decomp (Bool.not_eq_false _ ▸ hh) with ⟨a, b, rfl⟩
  rcases h with ⟨s, rfl⟩
  have := hasTriple_of_decomp a (b ++ s)
  rw [show a ++ '\n' :: '\n' :: '\n' :: (b ++ s) =
    (a ++ '\n' :: '\n' :: '\n' :: b) ++ s by simp] at this
  rw [this] at h2
  cases h2

theorem hasTriple_false_of_suffix {l1 l2 : List Char} (h : l1 <:+ l2)
    (h2 : hasTriple l2 = false) : hasTriple l1 = false := by
  by_contra hh
  rcases hasTriple_decomp (Bool.not_eq_false _ ▸ hh) with ⟨a, b, rfl⟩
  rcases h with ⟨s, rfl⟩
  have := hasTriple_of_decomp (s ++ a) b
  rw [show (s ++ a) ++ '\n' :: '\n' :: '\n' :: b =
    s ++ (a ++ '\n' :: '\n' :: '\n' :: b) by simp] at this
  rw [this] at h2
  cases h2

theorem dropTrailingWs_prefix_rel : ∀ l : List Char, dropTrailingWs l <+: l := by
  intro l
  induction l with
  | nil => exact List.prefix_refl _
  | cons c rest ih =>
    by_cases h : isPyWs c = true ∧ dropTrailingWs rest = []
    · simp [dropTrailingWs, h]
    · have h1 : dropTrailingWs (c :: rest) = c :: dropTrailingWs rest := by
        simp [dropTrailingWs]
        intro hw hr
        exact absurd ⟨hw, hr⟩ h
      rw [h1]
      simpa using ih

theorem pyStrip_no_triple {l : List Char} (h : hasTriple l = false) :
    hasTriple (pyStrip l) = false :=
  hasTriple_false_of_prefix_rel (dropTrailingWs_prefix_rel _)
    (hasTriple_false_of_suffix (List.dropWhile_suffix _) h)

theorem leadingNLRun_le_two : ∀ {l : List Char}, hasTriple l = false →
    leadingNLRun l ≤ 2 := by
  intro l h
  rcases l with _ | ⟨a, _ | ⟨b, _ | ⟨c, rest⟩⟩⟩
  · simp [leadingNLRun]
  · by_cases ha : a = '\n' <;> simp [leadingNLRun, ha]
  · by_cases ha : a = '\n' <;> by_cases hb : b = '\n' <;>
      simp [leadingNLRun, ha, hb]
  · by_cases ha : a = '\n'
    · by_cases hb : b = '\n'
      · by_cases hc : c = '\n'
        · exact absurd h (by simp [hasTriple, ha, hb, hc])
        · simp [leadingNLRun, ha, hb, hc]
      · simp [leadingNLRun, ha, hb]
    · simp [leadingNLRun, ha]

theorem collapseGo_no_triple : ∀ (l : List Char) (seen : Nat), seen ≤ 2 →
    hasTriple (collapseGo seen l) = false ∧
      leadingNLRun (collapseGo seen l) + seen ≤ 2 := by
  intro l
  induction l with
  | nil =>
    intro seen h
    exact ⟨rfl, by simpa [collapseGo, leadingNLRun] using h⟩
  | cons c rest ih =>
    intro seen hseen
    by_cases hc : c = '\n'
    · subst hc
      by_cases h2 : 2 ≤ seen
      · rw [show collapseGo seen ('\n' :: rest) = collapseGo seen rest by
          simp [collapseGo, h2]]
        exact ih seen hseen
      · rw [show collapseGo seen ('\n' :: rest) =
            '\n' :: collapseGo (seen + 1) rest by simp [collapseGo, h2]]
        have hih := ih (seen + 1) (by omega)
        constructor
        · rcases hX : collapseGo (seen + 1) rest with _ | ⟨b, _ | ⟨d, r2⟩⟩
          · simp [hasTriple]
          · simp [hasTriple]
          · rw [hX] at hih
            by_cases hb : b = '\n'
            · by_cases hd : d = '\n'
              · exfalso
                have : 2 ≤ leadingNLRun (b :: d :: r2) := by
                  simp [leadingNLRun, hb, hd]
                  omega
                omega
              · simp [hasTriple, hd, hih.1]
            · simp [hasTriple, hb, hih.1]
        · have : leadingNLRun ('\n' :: collapseGo (seen + 1) rest) =
              1 + leadingNLRun (collapseGo (seen + 1) rest) := by
            simp [leadingNLRun]
          omega
    · rw [show collapseGo seen (c :: rest) = c :: collapseGo 0 rest by
        simp [collapseGo, hc]]
      have hih := ih 0 (by omega)
      refine ⟨?_, ?_⟩
      · rw [hasTriple_cons_ne hc]
        exact hih.1
      · simp [leadingNLRun, hc]
        omega

theorem collapseGo_eq_self : ∀ (l : List Char) (seen : Nat),
    hasTriple l = false → seen + leadingNLRun l ≤ 2 → collapseGo seen l = l := by
  intro l
  induction l with
  | nil => intro seen _ _; rfl
  | cons c rest ih =>
    intro seen hT hR
    by_cases hc : c = '\n'
    · subst hc
      have hrun : leadingNLRun ('\n' :: rest) = 1 + leadingNLRun rest := by
        simp [leadingNLRun]
      have hs : ¬ 2 ≤ seen := by omega
      rw [show collapseGo seen ('\n' :: rest) =
          '\n' :: collapseGo (seen + 1) rest by simp [collapseGo, hs]]
      rw [ih (seen + 1) (hasTriple_cons_false hT) (by omega)]
    · rw [show collapseGo seen (c :: rest) = c :: collapseGo 0 rest by
        simp [collapseGo, hc]]
      rw [ih 0 (hasTriple_cons_false hT)
        (by have := leadingNLRun_le_two (hasTriple_cons_false hT); omega)]

/-- Claim C6, as stated, is false: an input with no quote-matching line is
returned stripped but otherwise unchanged (lines 89-91), bypassing the
blank-line collapsing, so a run of four newlines survives into the output. -/
theorem C6_counterexample :
    clean_quoted_email "a\n\n\n\nb" ["記"] = "a\n\n\n\nb" ∧
    hasTriple "a\n\n\n\nb".data = true := by decide

/-- Claim C6 amended: on every input that contains at least one
quote-matching line the output of the normalizer never contains a run of
three or more consecutive line breaks, and the collapsing step of line 119
leaves any string without such a run — in particular every run of exactly
two line breaks — unchanged (the final strip of line 121 may still remove
line breaks at the two ends of the text); inputs with no quote line are
returned merely stripped and can retain longer runs. -/
theorem C6_no_triple_newlines :
    (∀ (t : String) (kws : List String), quotedOf t.data ≠ [] →
      hasTriple (clean_quoted_email t kws).data = false) ∧
    (∀ s : List Char, hasTriple s = false → collapseNewlines s = s) := by
  constructor
  · intro t kws hq
    show hasTriple (cleanChars t.data (kws.map String.data)) = false
    rcases cleanChars_cases_quoted t.data (kws.map String.data) hq with h | h <;> rw [h]
    · rfl
    · show hasTriple (pyStrip (collapseNewlines _)) = false
      exact pyStrip_no_triple (collapseGo_no_triple _ 0 (by omega)).1
  · intro s hs
    exact collapseGo_eq_self s 0 hs
      (by have := leadingNLRun_le_two hs; omega)

/-- Witness for claim C6: the amended theorem applied to a concrete input
with a quote line and to a concrete string with a double line break. -/
theorem C6_witness :
    hasTriple (clean_quoted_email "> a\n\n\n\nz b" ["記"]).data = false ∧
    collapseNewlines "x\n\ny".data = "x\n\ny".data :=
  ⟨C6_no_triple_newlines.1 "> a\n\n\n\nz b" ["記"] (by decide),
   C6_no_triple_newlines.2 "x\n\ny".data (by decide)⟩

/-! ## Claim C5 -/

theorem pySplitGo_ne_nil (kw : List Char) :
    ∀ (fuel : Nat) (t : List Char), pySplitGo kw fuel t ≠ [] := by
  intro fuel
  induction fuel with
  | zero => intro t; cases t <;> simp [pySplitGo]
  | succ n ih =>
    intro t
    cases t with
    | nil => simp [pySplitGo]
    | cons c rest =>
      by_cases h : kw.isPrefixOf (c :: rest)
      · simp [pySplitGo, h]
      · rw [show pySplitGo kw (n + 1) (c :: rest) =
            consHead c (pySplitGo kw n rest) by simp [pySplitGo, h]]
        cases hh : pySplitGo kw n rest <;> simp [consHead]

theorem joinWith_nil_cons (r : List Char) (L : List (List Char)) (hL : L ≠ []) :
    joinWith r ([] :: L) = r ++ joinWith r L := by
  cases L with
  | nil => exact absurd rfl hL
  | cons h t => simp [joinWith]

theorem joinWith_consHead (r : List Char) (c : Char) (L : List (List Char))
    (hL : L ≠ []) : joinWith r (consHead c L) = c :: joinWith r L := by
  cases L with
  | nil => exact absurd rfl hL
  | cons h t =>
    cases t with
    | nil => rfl
    | cons h2 t2 => simp [consHead, joinWith]

theorem pyReplaceGo_join (kw r : List Char) (hkw : kw ≠ []) :
    ∀ (fuel : Nat) (t : List Char), t.length ≤ fuel →
      pyReplaceGo kw r fuel t = joinWith r (pySplitGo kw fuel t) := by
  have hk1 : 1 ≤ kw.length := by
    cases kw with
    | nil => exact absurd rfl hkw
    | cons a b => simp
  intro fuel
  induction fuel with
  | zero =>
    intro t ht
    have hnil : t = [] := List.eq_nil_of_length_eq_zero (Nat.le_zero.mp ht)
    subst hnil
    rfl
  | succ n ih =>
    intro t ht
    cases t with
    | nil => rfl
    | cons c rest =>
      by_cases h : kw.isPrefixOf (c :: rest)
      · have ht' : rest.length ≤ n := by simpa using ht
        have hlen : (rest.drop (kw.length - 1)).length ≤ n := by
          simp [List.length_drop]
          omega
        rw [show pyReplaceGo kw r (n + 1) (c :: rest) =
            r ++ pyReplaceGo kw r n (rest.drop (kw.length - 1)) by
          simp [pyReplaceGo, h]]
        rw [show pySplitGo kw (n + 1) (c :: rest) =
            [] :: pySplitGo kw n (rest.drop (kw.length - 1)) by
          simp [pySplitGo, h]]
        rw [joinWith_nil_cons _ _ (pySplitGo_ne_nil _ _ _), ih _ hlen]
      · have hlen : rest.length ≤ n := by simpa using ht
        rw [show pyReplaceGo kw r (n + 1) (c :: rest) =
            c :: pyReplaceGo kw r n rest by simp [pyReplaceGo, h]]
        rw [show pySplitGo kw (n + 1) (c :: rest) =
            consHead c (pySplitGo kw n rest) by simp [pySplitGo, h]]
        rw [joinWith_consHead _ _ _ (pySplitGo_ne_nil _ _ _), ih _ hlen]

/-- Claim C5 confirmed: the keyword pass walks the keyword list in order
over the progressively replaced text (`keywordPass` is the loop of lines
114-116), and for a non-empty keyword Python's `replace` rewrites the text
as the chunks of `t.split(kw)` joined by the replacement — every
non-overlapping occurrence of the keyword becomes two line breaks followed
by the keyword.  On the concrete example the keyword `件名` occurs twice,
both occurrences end up preceded by a blank line, and no run of three line
breaks survives the collapsing step. -/
theorem C5_keyword_replacement :
    (∀ (t kw r : List Char), kw ≠ [] →
      pyReplaceNE t kw r = joinWith r (pySplit t kw)) ∧
    (clean_quoted_email "> 概要。\n> 件名：A。\n> 件名：B。" ["件名"] =
        "概要。\n\n件名：A。\n\n件名：B。" ∧
      countOccurrences "概要。\n\n件名：A。\n\n件名：B。".data "\n\n件名".data = 2 ∧
      hasTriple "概要。\n\n件名：A。\n\n件名：B。".data = false) := by
  refine ⟨?_, by decide, by decide, by decide⟩
  intro t kw r hkw
  exact pyReplaceGo_join kw r hkw t.length t le_rfl

/-- Witness for claim C5: the replace-is-join-of-split characterization
instantiated at a concrete text and keyword. -/
theorem C5_witness :
    pyReplaceNE "x件名y件名".data "件名".data "\n\n件名".data =
      joinWith "\n\n件名".data (pySplit "x件名y件名".data "件名".data) :=
  C5_keyword_replacement.1 "x件名y件名".data "件名".data "\n\n件名".data (by decide)

/-! ## Claim C8 -/

/-- Claim C8 confirmed: every step inside the `try` block of lines 83-121
is a total string operation, so the guarded body `tryCleanBody` always
returns a result and never an error — the normalizer always returns some
string — and the `except` handler of lines 123-125, modelled by
`handleCleanResult`, returns the original, untransformed input text on any
error value. -/
theorem C8_never_raises :
    (∀ (t : String) (kws : List String),
      ∃ s, tryCleanBody t.data (kws.map String.data) = Except.ok s) ∧
    (∀ (text : List Char) (e : String),
      handleCleanResult text (Except.error e) = text) := by
  constructor
  · intro t kws
    unfold tryCleanBody
    split
    · exact ⟨_, rfl⟩
    · split
      · exact ⟨_, rfl⟩
      · exact ⟨_, rfl⟩
  · intro text e
    rfl
